import Mathlib

/-!
Shallow embedding of the Boys-function repository (boys_pure.py, boys_fast.py,
boys.py) over exact real arithmetic, together with theorems settling the
specification claims.  Python floats are modelled as real numbers; Python
lists as Lean lists; the `assert` statements of boys.py as `Except.error`.
-/

namespace Boys

noncomputable section
open Real

/-! ## BoysSeries: boys_ref (boys_pure.py lines 6-27)

The while loop
`while term > sum_val * eps_div_10 or old_term < term`
is modelled as the sequence of loop states, indexed by the number of executed
iterations; the function returns the accumulated sum at the first state where
the loop condition fails. -/

/-- State of the boys_ref summation loop: the variables denom, term,
old_term, sum_val of the Python code. -/
structure SeriesState where
  denom : ℝ
  term : ℝ
  oldTerm : ℝ
  sumVal : ℝ

/-- Initial loop state of boys_ref: denom = m + 0.5,
term = exp(-T) / (2 denom), old_term = 0, sum_val = term. -/
def seriesInit (m : ℕ) (T : ℝ) : SeriesState :=
  { denom := (m : ℝ) + 0.5
    term := Real.exp (-T) / (2 * ((m : ℝ) + 0.5))
    oldTerm := 0
    sumVal := Real.exp (-T) / (2 * ((m : ℝ) + 0.5)) }

/-- One iteration of the boys_ref loop body: denom += 1; old_term = term;
term = old_term * T / denom; sum_val += term. -/
def seriesStep (T : ℝ) (s : SeriesState) : SeriesState :=
  { denom := s.denom + 1
    term := s.term * T / (s.denom + 1)
    oldTerm := s.term
    sumVal := s.sumVal + s.term * T / (s.denom + 1) }

/-- Loop state of boys_ref after n executed iterations. -/
def seriesState (m : ℕ) (T : ℝ) : ℕ → SeriesState
  | 0 => seriesInit m T
  | n + 1 => seriesStep T (seriesState m T n)

/-- Exit condition of the boys_ref while loop (negation of
`term > sum_val * (eps/10) or old_term < term`). -/
def seriesDone (eps : ℝ) (s : SeriesState) : Prop :=
  s.term ≤ s.sumVal * (eps / 10) ∧ s.term ≤ s.oldTerm

/-- Termination of the boys_ref loop: some state satisfies the exit
condition. -/
def seriesTerminates (m : ℕ) (T eps : ℝ) : Prop :=
  ∃ n, seriesDone eps (seriesState m T n)

open scoped Classical in
/-- boys_ref (boys_pure.py): if T < 1e-14 return 1/(2m+1); otherwise run the
summation loop to its first exit state and return its sum_val.  The value 0 in
the non-terminating branch is never reached (see the termination theorem). -/
def boys_ref (m : ℕ) (T : ℝ) (eps : ℝ) : ℝ :=
  if T < 1e-14 then 1 / (2 * (m : ℝ) + 1)
  else if h : seriesTerminates m T eps then (seriesState m T (Nat.find h)).sumVal
  else 0

/-! ## BoysRecurrence: boys_recur_array (boys_pure.py lines 30-46) -/

/-- Gauss error function, the mathematical function computed by Python's
math.erf: erf x = (2/sqrt pi) * integral of exp(-t^2) for t from 0 to x. -/
def erf (x : ℝ) : ℝ :=
  2 / Real.sqrt π * ∫ t in (0 : ℝ)..x, Real.exp (-t ^ 2)

/-- Value stored in Fm[k] by boys_recur_array: the seed
K * erf(sqrt T) / sqrt T at k = 0, then the upward recurrence
Fm[m+1] = ((2m+1) Fm[m] - exp(-T)) / (2T). -/
def recurFm (T : ℝ) : ℕ → ℝ
  | 0 => 0.5 * Real.sqrt π * erf (Real.sqrt T) / Real.sqrt T
  | m + 1 => ((2 * (m : ℝ) + 1) * recurFm T m - Real.exp (-T)) / (2 * T)

/-- boys_recur_array (boys_pure.py): the list Fm of length mmax+1 produced by
seeding Fm[0] and filling Fm[m+1] from Fm[m] by the upward recurrence. -/
def boys_recur_array (mmax : ℕ) (T : ℝ) : List ℝ :=
  (List.range (mmax + 1)).map (recurFm T)

/-! ## BoysDispatcher: boys_fast, boys_fast_array (boys_pure.py lines 49-68) -/

open scoped Classical in
/-- boys_fast (boys_pure.py): if T < 117.0 delegate to boys_ref, otherwise
compute boys_recur_array(m, T) and return its element at index m. -/
def boys_fast (m : ℕ) (T : ℝ) (eps : ℝ) : ℝ :=
  if T < 117 then boys_ref m T eps
  else (boys_recur_array m T).getD m 0

open scoped Classical in
/-- boys_fast_array (boys_pure.py): if T < 117.0 the list of boys_ref values
for m = 0..mmax, otherwise boys_recur_array(mmax, T). -/
def boys_fast_array (mmax : ℕ) (T : ℝ) (eps : ℝ) : List ℝ :=
  if T < 117 then (List.range (mmax + 1)).map (fun m => boys_ref m T eps)
  else boys_recur_array mmax T

/-! ## IncompleteGamma: boys.py

The Python `assert` in gamm_inc and _gser raise AssertionError on violated
preconditions; this is modelled by returning `Except.error`.  The
logger.warning side channel of _gser and _gcf is modelled as a returned
Boolean flag, and the number of executed loop iterations is returned
alongside so that the iteration cap is observable. -/

/-- log Gamma, the mathematical function computed by Python's lgamma
for positive arguments. -/
def lgamma (a : ℝ) : ℝ := Real.log (Real.Gamma a)

/-- State of the _gser summation loop: the variables ap, delt, sum. -/
structure GserState where
  ap : ℝ
  delt : ℝ
  sumVal : ℝ

/-- One iteration of the _gser loop body: ap += 1; delt *= x/ap;
sum += delt. -/
def gserStep (x : ℝ) (s : GserState) : GserState :=
  { ap := s.ap + 1
    delt := s.delt * x / (s.ap + 1)
    sumVal := s.sumVal + s.delt * x / (s.ap + 1) }

open scoped Classical in
/-- The _gser for-loop with remaining fuel: runs the body, breaks when
|delt| < |sum| * EPS.  Returns the final state, whether the break was taken
(convergence), and the number of executed iterations. -/
def gserLoop (x EPS : ℝ) : ℕ → GserState → GserState × Bool × ℕ
  | 0, s => (s, false, 0)
  | fuel + 1, s =>
      let s' := gserStep x s
      if |s'.delt| < |s'.sumVal| * EPS then (s', true, 1)
      else
        let r := gserLoop x EPS fuel s'
        (r.1, r.2.1, r.2.2 + 1)

open scoped Classical in
/-- _gser (boys.py): series representation of the incomplete gamma.
ITMAX = 100, EPS = 3e-7.  Errors when x < 0 (the assert); returns the pair
(gamser, gln) together with the warning flag (cap exhausted without
convergence) and the executed iteration count. -/
def _gser (a x : ℝ) : Except String ((ℝ × ℝ) × Bool × ℕ) :=
  let gln := lgamma a
  if x < 0 then Except.error "x < 0 in gser"
  else if x = 0 then Except.ok ((0, gln), false, 0)
  else
    let s0 : GserState := { ap := a, delt := 1 / a, sumVal := 1 / a }
    let r := gserLoop x 3e-7 100 s0
    Except.ok ((r.1.sumVal * Real.exp (-x + a * Real.log x - gln), gln),
      !r.2.1, r.2.2)

/-- State of the _gcf continued-fraction loop: the variables b, c, d, h. -/
structure GcfState where
  b : ℝ
  c : ℝ
  d : ℝ
  h : ℝ

open scoped Classical in
/-- One iteration of the _gcf loop body at (1-based) index i, following the
modified Lentz algorithm with floor FPMIN = 1e-30.  Returns the new state and
the ratio delt of this iteration. -/
def gcfStep (a : ℝ) (i : ℕ) (s : GcfState) : GcfState × ℝ :=
  let an := -(i : ℝ) * ((i : ℝ) - a)
  let b' := s.b + 2
  let d0 := an * s.d + b'
  let d1 := if |d0| < 1e-30 then (1e-30 : ℝ) else d0
  let c0 := b' + an / s.c
  let c1 := if |c0| < 1e-30 then (1e-30 : ℝ) else c0
  let d2 := 1 / d1
  let delt := d2 * c1
  ({ b := b', c := c1, d := d2, h := s.h * delt }, delt)

open scoped Classical in
/-- The _gcf for-loop with remaining fuel, iteration index i; breaks when
|delt - 1| < EPS.  Returns the final state, whether the break was taken, and
the number of executed iterations. -/
def gcfLoop (a EPS : ℝ) : ℕ → ℕ → GcfState → GcfState × Bool × ℕ
  | 0, _, s => (s, false, 0)
  | fuel + 1, i, s =>
      let r0 := gcfStep a i s
      if |r0.2 - 1| < EPS then (r0.1, true, 1)
      else
        let r := gcfLoop a EPS fuel (i + 1) r0.1
        (r.1, r.2.1, r.2.2 + 1)

/-- _gcf (boys.py): continued-fraction representation of the incomplete
gamma.  ITMAX = 100, EPS = 3e-7, FPMIN = 1e-30.  Returns (gammcf, gln)
together with the warning flag and the executed iteration count; it has no
failure case. -/
def _gcf (a x : ℝ) : (ℝ × ℝ) × Bool × ℕ :=
  let gln := lgamma a
  let s0 : GcfState :=
    { b := x + 1 - a, c := 1 / 1e-30, d := 1 / (x + 1 - a), h := 1 / (x + 1 - a) }
  let r := gcfLoop a 3e-7 100 1 s0
  ((Real.exp (-x + a * Real.log x - gln) * r.1.h, gln), !r.2.1, r.2.2)

/-- Warning flag of _gser (false when _gser errors or x = 0). -/
def gserWarned (a x : ℝ) : Bool :=
  match _gser a x with
  | .ok (_, w, _) => w
  | .error _ => false

/-- Executed iteration count of _gser (0 when _gser errors). -/
def gserIters (a x : ℝ) : ℕ :=
  match _gser a x with
  | .ok (_, _, n) => n
  | .error _ => 0

/-- Warning flag of _gcf. -/
def gcfWarned (a x : ℝ) : Bool := (_gcf a x).2.1

/-- Executed iteration count of _gcf. -/
def gcfIters (a x : ℝ) : ℕ := (_gcf a x).2.2

open scoped Classical in
/-- gamm_inc (boys.py): errors unless x > 0 and a >= 0 (the assert), then
dispatches on x < a+1 between the series and the continued-fraction
representation, returning exp(gln) * gam. -/
def gamm_inc (a x : ℝ) : Except String ℝ :=
  if ¬(0 < x ∧ 0 ≤ a) then
    Except.error "Invalid arguments in routine gamm_inc"
  else if x < a + 1 then
    match _gser a x with
    | .error e => .error e
    | .ok ((gam, gln), _, _) => .ok (Real.exp gln * gam)
  else
    let r := _gcf a x
    .ok (Real.exp r.1.2 * (1 - r.1.1))

/-- Fgamma (boys.py): clamps x to max(x, SMALL) with SMALL = 1e-12, then
returns 0.5 * x^(-m-0.5) * gamm_inc(m+0.5, x). -/
def Fgamma (m : ℕ) (x : ℝ) : Except String ℝ :=
  let x' := max x 1e-12
  (gamm_inc ((m : ℝ) + 0.5) x').map
    (fun g => 0.5 * Real.rpow x' (-(m : ℝ) - 0.5) * g)

end

/-! ## Helper lemmas -/

noncomputable section
open Real

/-- Element k of a mapped range list, for k in range. -/
theorem getD_range_map (f : ℕ → ℝ) {n k : ℕ} (h : k < n) :
    ((List.range n).map f).getD k 0 = f k := by
  rw [List.getD_eq_getElem?_getD, List.getElem?_map, List.getElem?_range h]
  rfl

/-- Element k of boys_recur_array mmax T is recurFm T k, for k ≤ mmax. -/
theorem boys_recur_array_getD {mmax k : ℕ} (h : k ≤ mmax) (T : ℝ) :
    (boys_recur_array mmax T).getD k 0 = recurFm T k :=
  getD_range_map (recurFm T) (Nat.lt_succ_of_le h)

/-- boys_recur_array always has length mmax + 1. -/
theorem boys_recur_array_length (mmax : ℕ) (T : ℝ) :
    (boys_recur_array mmax T).length = mmax + 1 := by
  simp [boys_recur_array]

/-! ## Claim theorems (dispatch and structural claims) -/

/-- C2: for every m, T, eps, the dispatcher boys_fast returns
boys_ref(m, T, eps) when T < 117.0, and otherwise computes the recurrence
vector boys_recur_array(m, T) — of length m+1, filled from index 0 — and
returns its element at index m. -/
theorem boys_fast_dispatch (m : ℕ) (T eps : ℝ) :
    (T < 117 → boys_fast m T eps = boys_ref m T eps) ∧
    (117 ≤ T →
      boys_fast m T eps = (boys_recur_array m T).getD m 0 ∧
      (boys_recur_array m T).length = m + 1) := by
  constructor
  · intro h
    simp [boys_fast, h]
  · intro h
    refine ⟨?_, boys_recur_array_length m T⟩
    simp [boys_fast, not_lt.mpr h]

/-- Witness for boys_fast_dispatch at T = 1 (series branch) and T = 117
(recurrence branch). -/
theorem boys_fast_dispatch_witness :
    boys_fast 0 1 1 = boys_ref 0 1 1 ∧
    boys_fast 2 117 1 = (boys_recur_array 2 117).getD 2 0 :=
  ⟨(boys_fast_dispatch 0 1 1).1 (by norm_num),
   ((boys_fast_dispatch 2 117 1).2 (by norm_num)).1⟩

/-- C3: boys_recur_array(mmax, T) has length mmax+1, its element 0 is
0.5·sqrt(π)·erf(sqrt T)/sqrt T, and for every m < mmax its element m+1
equals ((2m+1)·(element m) − exp(−T)) / (2T). -/
theorem boys_recur_array_spec (mmax : ℕ) (T : ℝ) (hT : 0 < T) :
    (boys_recur_array mmax T).length = mmax + 1 ∧
    (boys_recur_array mmax T).getD 0 0 =
      0.5 * Real.sqrt π * erf (Real.sqrt T) / Real.sqrt T ∧
    ∀ m, m < mmax →
      (boys_recur_array mmax T).getD (m + 1) 0 =
        ((2 * (m : ℝ) + 1) * (boys_recur_array mmax T).getD m 0
          - Real.exp (-T)) / (2 * T) := by
  refine ⟨boys_recur_array_length mmax T, ?_, ?_⟩
  · rw [boys_recur_array_getD (Nat.zero_le mmax)]
    rfl
  · intro m hm
    rw [boys_recur_array_getD hm, boys_recur_array_getD (Nat.le_of_lt hm)]
    rfl

/-- Witness for boys_recur_array_spec at mmax = 1, T = 1. -/
theorem boys_recur_array_spec_witness :
    (boys_recur_array 1 1).length = 1 + 1 ∧
    (boys_recur_array 1 1).getD 0 0 =
      0.5 * Real.sqrt π * erf (Real.sqrt 1) / Real.sqrt 1 ∧
    ∀ m, m < 1 →
      (boys_recur_array 1 1).getD (m + 1) 0 =
        ((2 * (m : ℝ) + 1) * (boys_recur_array 1 1).getD m 0
          - Real.exp (-1)) / (2 * 1) :=
  boys_recur_array_spec 1 1 (by norm_num)

/-- C4: for 0 ≤ T < 1e-14 and eps > 0, boys_fast returns the closed form
1/(2m+1) (the series loop is not entered). -/
theorem boys_fast_zero_limit (m : ℕ) (T eps : ℝ)
    (hT0 : 0 ≤ T) (hT : T < 1e-14) (heps : 0 < eps) :
    boys_fast m T eps = 1 / (2 * (m : ℝ) + 1) := by
  have h117 : T < 117 := by
    calc T < 1e-14 := hT
    _ < 117 := by norm_num
  simp [boys_fast, h117, boys_ref, hT]

/-- Witness for boys_fast_zero_limit at m = 3, T = 0, eps = 1. -/
theorem boys_fast_zero_limit_witness :
    boys_fast 3 0 1 = 1 / (2 * (3 : ℝ) + 1) :=
  boys_fast_zero_limit 3 0 1 le_rfl (by norm_num) (by norm_num)

/-- C10: for every T < 0 (undefined input), boys_fast raises no error and
silently returns the T = 0 value 1/(2m+1): the dispatcher's T < 117.0 test
and the series routine's T < 1e-14 test both pass. -/
theorem boys_fast_negative_T (m : ℕ) (T eps : ℝ) (hT : T < 0) :
    boys_fast m T eps = 1 / (2 * (m : ℝ) + 1) := by
  have h117 : T < 117 := by linarith
  have h14 : T < 1e-14 := by
    calc T < 0 := hT
    _ < 1e-14 := by norm_num
  simp [boys_fast, h117, boys_ref, h14]

/-- Witness for boys_fast_negative_T at m = 0, T = -1, eps = 1. -/
theorem boys_fast_negative_T_witness :
    boys_fast 0 (-1) 1 = 1 / (2 * ((0 : ℕ) : ℝ) + 1) :=
  boys_fast_negative_T 0 (-1) 1 (by norm_num)

/-- C6: for m ≤ mmax, element m of boys_fast_array(mmax, T, eps) equals
boys_fast(m, T, eps); in particular for T ≥ 117 element m of the recurrence
vector computed up to mmax equals element m of the one computed up to m. -/
theorem boys_fast_array_agree (mmax m : ℕ) (T eps : ℝ) (h : m ≤ mmax) :
    (boys_fast_array mmax T eps).getD m 0 = boys_fast m T eps := by
  by_cases h117 : T < 117
  · simp only [boys_fast_array, boys_fast, if_pos h117]
    exact getD_range_map _ (Nat.lt_succ_of_le h)
  · simp only [boys_fast_array, boys_fast, if_neg h117]
    rw [boys_recur_array_getD h, boys_recur_array_getD (le_refl m)]

/-- Witness for boys_fast_array_agree at mmax = 2, m = 1, T = 117. -/
theorem boys_fast_array_agree_witness :
    (boys_fast_array 2 117 1).getD 1 0 = boys_fast 1 117 1 :=
  boys_fast_array_agree 2 1 117 1 (by norm_num)

/-! ## The gamma-formulation path never raises (C1) -/

/-- _gser succeeds (its assert passes) whenever x ≥ 0. -/
theorem gser_eq_ok {a x : ℝ} (hx : 0 ≤ x) : ∃ r, _gser a x = Except.ok r := by
  unfold _gser
  rw [if_neg (not_lt.mpr hx)]
  by_cases h0 : x = 0
  · rw [if_pos h0]
    exact ⟨_, rfl⟩
  · rw [if_neg h0]
    exact ⟨_, rfl⟩

/-- Except.map preserves the isOk flag. -/
theorem except_isOk_map (e : Except String ℝ) (f : ℝ → ℝ) :
    (e.map f).isOk = e.isOk := by
  cases e <;> rfl

/-- gamm_inc succeeds exactly when its assert passes: x > 0 and a ≥ 0. -/
theorem gamm_inc_isOk_iff (a x : ℝ) :
    (gamm_inc a x).isOk = true ↔ (0 < x ∧ 0 ≤ a) := by
  by_cases hax : 0 < x ∧ 0 ≤ a
  · simp only [gamm_inc, if_neg (not_not_intro hax)]
    by_cases hlt : x < a + 1
    · rw [if_pos hlt]
      obtain ⟨⟨⟨gam, gln⟩, w, n⟩, hr⟩ := gser_eq_ok (le_of_lt hax.1)
      rw [hr]
      exact iff_of_true rfl hax
    · rw [if_neg hlt]
      exact iff_of_true rfl hax
  · simp only [gamm_inc, if_pos hax]
    exact iff_of_false (by exact fun h => Bool.false_ne_true h) hax

/-- Fgamma never raises: the clamp x ↦ max(x, 1e-12) makes the argument of
gamm_inc strictly positive, and a = m + 0.5 ≥ 0. -/
theorem Fgamma_isOk (m : ℕ) (x : ℝ) : (Fgamma m x).isOk = true := by
  unfold Fgamma
  rw [except_isOk_map]
  rw [gamm_inc_isOk_iff]
  constructor
  · exact lt_max_of_lt_right (by norm_num)
  · positivity

/-- C1 counterexample: Fgamma(0, 0.0) and Fgamma(0, -1.0) both return a
value rather than raising InvalidArgument, because Fgamma clamps x to
max(x, 1e-12) before calling gamm_inc. -/
theorem Fgamma_accepts_invalid_x :
    (Fgamma 0 0).isOk = true ∧ (Fgamma 0 (-1)).isOk = true :=
  ⟨Fgamma_isOk 0 0, Fgamma_isOk 0 (-1)⟩

/-- C1 amended: Fgamma itself never raises for any m and any real x (the
1e-12 clamp removes the x ≤ 0 case); the InvalidArgument error lives in
gamm_inc, which fails exactly when x ≤ 0 or a < 0 when called directly. -/
theorem Fgamma_total_and_gamm_inc_guard :
    (∀ (m : ℕ) (x : ℝ), (Fgamma m x).isOk = true) ∧
    (∀ a x : ℝ, (gamm_inc a x).isOk = true ↔ (0 < x ∧ 0 ≤ a)) :=
  ⟨Fgamma_isOk, gamm_inc_isOk_iff⟩

/-! ## Iteration caps of the gamma routines (C8) -/

/-- The _gser loop executes at most fuel iterations. -/
theorem gserLoop_iters_le (x EPS : ℝ) (fuel : ℕ) :
    ∀ s, (gserLoop x EPS fuel s).2.2 ≤ fuel := by
  induction fuel with
  | zero => intro s; simp [gserLoop]
  | succ n ih =>
      intro s
      simp only [gserLoop]
      split
      · show 1 ≤ n + 1
        omega
      · have := ih (gserStep x s)
        simp only []
        omega

/-- When the _gser loop does not converge, it executes exactly fuel
iterations (the full cap). -/
theorem gserLoop_iters_of_no_conv (x EPS : ℝ) (fuel : ℕ) :
    ∀ s, (gserLoop x EPS fuel s).2.1 = false →
      (gserLoop x EPS fuel s).2.2 = fuel := by
  induction fuel with
  | zero => intro s _; simp [gserLoop]
  | succ n ih =>
      intro s
      simp only [gserLoop]
      split
      · intro h
        exact absurd h (by simp)
      · intro h
        have := ih (gserStep x s) h
        simp only []
        omega

/-- The _gcf loop executes at most fuel iterations. -/
theorem gcfLoop_iters_le (a EPS : ℝ) (fuel : ℕ) :
    ∀ i s, (gcfLoop a EPS fuel i s).2.2 ≤ fuel := by
  induction fuel with
  | zero => intro i s; simp [gcfLoop]
  | succ n ih =>
      intro i s
      simp only [gcfLoop]
      split
      · show 1 ≤ n + 1
        omega
      · have := ih (i + 1) (gcfStep a i s).1
        simp only []
        omega

/-- When the _gcf loop does not converge, it executes exactly fuel
iterations. -/
theorem gcfLoop_iters_of_no_conv (a EPS : ℝ) (fuel : ℕ) :
    ∀ i s, (gcfLoop a EPS fuel i s).2.1 = false →
      (gcfLoop a EPS fuel i s).2.2 = fuel := by
  induction fuel with
  | zero => intro i s _; simp [gcfLoop]
  | succ n ih =>
      intro i s
      simp only [gcfLoop]
      split
      · intro h
        exact absurd h (by simp)
      · intro h
        have := ih (i + 1) (gcfStep a i s).1 h
        simp only []
        omega

/-- Cap behaviour of _gser: at most 100 iterations, and the warning flag is
set only when all 100 iterations ran. -/
theorem gser_cap (a x : ℝ) :
    gserIters a x ≤ 100 ∧ (gserIters a x = 100 ∨ gserWarned a x = false) := by
  by_cases hx : x < 0
  · have h : _gser a x = Except.error "x < 0 in gser" := by
      unfold _gser
      rw [if_pos hx]
    simp [gserIters, gserWarned, h]
  · by_cases h0 : x = 0
    · have h : _gser a x = Except.ok ((0, lgamma a), false, 0) := by
        unfold _gser
        rw [if_neg hx, if_pos h0]
      simp [gserIters, gserWarned, h]
    · have h : _gser a x = Except.ok
          (((gserLoop x 3e-7 100 ⟨a, 1 / a, 1 / a⟩).1.sumVal *
              Real.exp (-x + a * Real.log x - lgamma a), lgamma a),
            !(gserLoop x 3e-7 100 ⟨a, 1 / a, 1 / a⟩).2.1,
            (gserLoop x 3e-7 100 ⟨a, 1 / a, 1 / a⟩).2.2) := by
        unfold _gser
        rw [if_neg hx, if_neg h0]
      rw [show gserIters a x = (gserLoop x 3e-7 100 ⟨a, 1 / a, 1 / a⟩).2.2 by
            simp [gserIters, h],
          show gserWarned a x = !(gserLoop x 3e-7 100 ⟨a, 1 / a, 1 / a⟩).2.1 by
            simp [gserWarned, h]]
      refine ⟨gserLoop_iters_le x 3e-7 100 _, ?_⟩
      by_cases hc : (gserLoop x 3e-7 100 ⟨a, 1 / a, 1 / a⟩).2.1 = false
      · exact Or.inl (gserLoop_iters_of_no_conv x 3e-7 100 _ hc)
      · right
        rw [Bool.not_eq_false] at hc
        rw [hc]
        rfl

/-- Cap behaviour of _gcf: at most 100 iterations, and the warning flag is
set only when all 100 iterations ran. -/
theorem gcf_cap (a x : ℝ) :
    gcfIters a x ≤ 100 ∧ (gcfIters a x = 100 ∨ gcfWarned a x = false) := by
  have h1 : gcfIters a x =
      (gcfLoop a 3e-7 100 1 ⟨x + 1 - a, 1 / 1e-30, 1 / (x + 1 - a),
        1 / (x + 1 - a)⟩).2.2 := by
    simp [gcfIters, _gcf]
  have h2 : gcfWarned a x =
      !(gcfLoop a 3e-7 100 1 ⟨x + 1 - a, 1 / 1e-30, 1 / (x + 1 - a),
        1 / (x + 1 - a)⟩).2.1 := by
    simp [gcfWarned, _gcf]
  rw [h1, h2]
  refine ⟨gcfLoop_iters_le a 3e-7 100 _ _, ?_⟩
  by_cases hc : (gcfLoop a 3e-7 100 1 ⟨x + 1 - a, 1 / 1e-30, 1 / (x + 1 - a),
      1 / (x + 1 - a)⟩).2.1 = false
  · exact Or.inl (gcfLoop_iters_of_no_conv a 3e-7 100 _ _ hc)
  · right
    rw [Bool.not_eq_false] at hc
    rw [hc]
    rfl

/-- C8: both gamma routines are capped at 100 iterations; on cap exhaustion
they only set the warning flag (the flag is set only when all 100 iterations
ran) and still return a result.  _gser fails only on its x < 0 assert, never
on non-convergence, and _gcf has no failure case at all (it returns a plain
tuple by type). -/
theorem gamma_iteration_cap (a x : ℝ) :
    (0 ≤ x → (_gser a x).isOk = true) ∧
    gserIters a x ≤ 100 ∧ (gserIters a x = 100 ∨ gserWarned a x = false) ∧
    gcfIters a x ≤ 100 ∧ (gcfIters a x = 100 ∨ gcfWarned a x = false) := by
  refine ⟨?_, (gser_cap a x).1, (gser_cap a x).2, (gcf_cap a x).1,
    (gcf_cap a x).2⟩
  intro hx
  obtain ⟨r, hr⟩ := gser_eq_ok (a := a) hx
  rw [hr]
  rfl

/-- Witness for gamma_iteration_cap at a = 1, x = 1. -/
theorem gamma_iteration_cap_witness :
    (_gser 1 1).isOk = true ∧
    gserIters 1 1 ≤ 100 ∧ (gserIters 1 1 = 100 ∨ gserWarned 1 1 = false) ∧
    gcfIters 1 1 ≤ 100 ∧ (gcfIters 1 1 = 100 ∨ gcfWarned 1 1 = false) := by
  have h := gamma_iteration_cap 1 1
  exact ⟨h.1 (by norm_num), h.2⟩

/-! ## Termination of the boys_ref loop (C7) -/

/-- The running denominator after n iterations is m + 0.5 + n. -/
theorem seriesState_denom (m : ℕ) (T : ℝ) (n : ℕ) :
    (seriesState m T n).denom = (m : ℝ) + 0.5 + n := by
  induction n with
  | zero => simp [seriesState, seriesInit]
  | succ k ih =>
      simp only [seriesState, seriesStep, ih, Nat.cast_succ]
      ring

/-- Evolution of the current term across one iteration. -/
theorem seriesState_term_succ (m : ℕ) (T : ℝ) (n : ℕ) :
    (seriesState m T (n + 1)).term =
      (seriesState m T n).term * T / ((m : ℝ) + 0.5 + n + 1) := by
  simp [seriesState, seriesStep, seriesState_denom]

/-- The old_term variable holds the previous term. -/
theorem seriesState_oldTerm_succ (m : ℕ) (T : ℝ) (n : ℕ) :
    (seriesState m T (n + 1)).oldTerm = (seriesState m T n).term := rfl

/-- Evolution of the accumulated sum across one iteration. -/
theorem seriesState_sumVal_succ (m : ℕ) (T : ℝ) (n : ℕ) :
    (seriesState m T (n + 1)).sumVal =
      (seriesState m T n).sumVal + (seriesState m T (n + 1)).term := by
  simp [seriesState, seriesStep, seriesState_denom]

/-- All terms of the boys_ref loop are nonnegative when T ≥ 0. -/
theorem seriesState_term_nonneg (m : ℕ) {T : ℝ} (hT : 0 ≤ T) (n : ℕ) :
    0 ≤ (seriesState m T n).term := by
  induction n with
  | zero =>
      show 0 ≤ Real.exp (-T) / (2 * ((m : ℝ) + 0.5))
      positivity
  | succ k ih =>
      rw [seriesState_term_succ]
      have hden : (0 : ℝ) < (m : ℝ) + 0.5 + k + 1 := by positivity
      exact div_nonneg (mul_nonneg ih hT) (le_of_lt hden)

/-- The accumulated sum never drops below the first term. -/
theorem seriesState_sumVal_ge (m : ℕ) {T : ℝ} (hT : 0 ≤ T) (n : ℕ) :
    Real.exp (-T) / (2 * ((m : ℝ) + 0.5)) ≤ (seriesState m T n).sumVal := by
  induction n with
  | zero => exact le_refl _
  | succ k ih =>
      rw [seriesState_sumVal_succ]
      exact le_add_of_le_of_nonneg ih (seriesState_term_nonneg m hT (k + 1))

/-- Once the running denominator passes 2T, each term is at most half the
previous one. -/
theorem seriesState_term_halves (m : ℕ) {T : ℝ} (hT : 0 ≤ T) {n : ℕ}
    (h : 2 * T ≤ (m : ℝ) + 0.5 + n + 1) :
    (seriesState m T (n + 1)).term ≤ (seriesState m T n).term * (1 / 2) := by
  rw [seriesState_term_succ, mul_div_assoc]
  refine mul_le_mul_of_nonneg_left ?_ (seriesState_term_nonneg m hT n)
  have hden : (0 : ℝ) < (m : ℝ) + 0.5 + n + 1 := by positivity
  rw [div_le_iff₀ hden]
  linarith

/-- Geometric decay of the terms beyond index N, for N past 2T. -/
theorem seriesState_term_decay (m : ℕ) {T : ℝ} (hT : 0 ≤ T) {N : ℕ}
    (hN : 2 * T ≤ (N : ℝ)) (k : ℕ) :
    (seriesState m T (N + k)).term ≤
      (seriesState m T N).term * (1 / 2) ^ k := by
  induction k with
  | zero => simp
  | succ j ih =>
      have hj : 2 * T ≤ (m : ℝ) + 0.5 + ((N + j : ℕ) : ℝ) + 1 := by
        push_cast
        have h1 : (0 : ℝ) ≤ (j : ℝ) := Nat.cast_nonneg j
        have h2 : (0 : ℝ) ≤ (m : ℝ) := Nat.cast_nonneg m
        linarith
      calc (seriesState m T (N + (j + 1))).term
          ≤ (seriesState m T (N + j)).term * (1 / 2) :=
            seriesState_term_halves m hT hj
        _ ≤ (seriesState m T N).term * (1 / 2) ^ j * (1 / 2) :=
            mul_le_mul_of_nonneg_right ih (by norm_num)
        _ = (seriesState m T N).term * (1 / 2) ^ (j + 1) := by ring

/-- Termination of the boys_ref summation loop for every T ≥ 0 and eps > 0:
some loop state satisfies the exit condition.  (No upper bound on T is
needed in exact arithmetic; in particular all 0 ≤ T < 117 terminate.) -/
theorem boys_ref_terminates (m : ℕ) (T eps : ℝ) (hT : 0 ≤ T)
    (heps : 0 < eps) : seriesTerminates m T eps := by
  have ht0pos : 0 < Real.exp (-T) / (2 * ((m : ℝ) + 0.5)) := by positivity
  set t0 : ℝ := Real.exp (-T) / (2 * ((m : ℝ) + 0.5)) with ht0
  obtain ⟨N, hN⟩ := exists_nat_ge (2 * T)
  set tN : ℝ := (seriesState m T N).term with htN
  have htNnn : 0 ≤ tN := seriesState_term_nonneg m hT N
  have hc : 0 < t0 * (eps / 10) / (tN + 1) := by positivity
  obtain ⟨k, hk⟩ := exists_pow_lt_of_lt_one hc
    (show (1 : ℝ) / 2 < 1 by norm_num)
  refine ⟨N + k + 1, ?_, ?_⟩
  · -- term ≤ sum * (eps/10)
    have h1 : (seriesState m T (N + k + 1)).term ≤ tN * (1 / 2) ^ (k + 1) := by
      have := seriesState_term_decay m hT hN (k + 1)
      simpa [Nat.add_assoc] using this
    have h2 : tN * (1 / 2 : ℝ) ^ (k + 1) ≤ (tN + 1) * (1 / 2) ^ k := by
      have hp : ((1 : ℝ) / 2) ^ (k + 1) ≤ (1 / 2) ^ k :=
        pow_le_pow_of_le_one (by norm_num) (by norm_num) (Nat.le_succ k)
      have hpn : (0 : ℝ) ≤ (1 / 2 : ℝ) ^ (k + 1) := by positivity
      calc tN * (1 / 2 : ℝ) ^ (k + 1)
          ≤ (tN + 1) * (1 / 2) ^ (k + 1) :=
            mul_le_mul_of_nonneg_right (by linarith) hpn
        _ ≤ (tN + 1) * (1 / 2) ^ k :=
            mul_le_mul_of_nonneg_left hp (by linarith)
    have h3 : (tN + 1) * (1 / 2 : ℝ) ^ k < t0 * (eps / 10) := by
      rw [lt_div_iff₀ (show (0:ℝ) < tN + 1 by linarith)] at hk
      linarith [hk]
    have h4 : t0 * (eps / 10) ≤ (seriesState m T (N + k + 1)).sumVal * (eps / 10) :=
      mul_le_mul_of_nonneg_right (seriesState_sumVal_ge m hT (N + k + 1))
        (by positivity)
    linarith
  · -- term ≤ old_term
    rw [seriesState_oldTerm_succ]
    have hj : 2 * T ≤ (m : ℝ) + 0.5 + ((N + k : ℕ) : ℝ) + 1 := by
      push_cast
      have h1 : (0 : ℝ) ≤ (k : ℝ) := Nat.cast_nonneg k
      have h2 : (0 : ℝ) ≤ (m : ℝ) := Nat.cast_nonneg m
      linarith
    have := seriesState_term_halves m hT hj
    have hnn := seriesState_term_nonneg m hT (N + k)
    linarith

/-- C7: for every m ≥ 0, 0 ≤ T < 117 and eps > 0 the uncapped boys_ref
summation loop reaches its exit condition; and for every mmax ≥ 0 and every
T' > 0 (in particular T' ≥ 117), boys_recur_array terminates producing its
full vector of length mmax+1. -/
theorem uncapped_loops_terminate (m : ℕ) (T eps : ℝ)
    (hT0 : 0 ≤ T) (hT : T < 117) (heps : 0 < eps) :
    seriesTerminates m T eps ∧
    ∀ (mmax : ℕ) (T' : ℝ), 0 < T' →
      (boys_recur_array mmax T').length = mmax + 1 :=
  ⟨boys_ref_terminates m T eps hT0 heps,
   fun mmax T' _ => boys_recur_array_length mmax T'⟩

/-- Witness for uncapped_loops_terminate: the series loop at m = 0, T = 1,
eps = 1, and the recurrence at mmax = 5, T' = 200 (the T ≥ 117 domain). -/
theorem uncapped_loops_terminate_witness :
    seriesTerminates 0 1 1 ∧ (boys_recur_array 5 200).length = 5 + 1 :=
  ⟨(uncapped_loops_terminate 0 1 1 (by norm_num) (by norm_num)
      (by norm_num)).1,
   (uncapped_loops_terminate 0 1 1 (by norm_num) (by norm_num)
      (by norm_num)).2 5 200 (by norm_num)⟩

/-! ## Bounds on the series branch (towards C9) -/

/-- Each term of the boys_ref series is dominated by the exponential-series
term t0 · T^i / i!. -/
theorem seriesState_term_le_exp_term (m : ℕ) {T : ℝ} (hT : 0 ≤ T) (i : ℕ) :
    (seriesState m T i).term ≤
      Real.exp (-T) / (2 * ((m : ℝ) + 0.5)) * T ^ i / (Nat.factorial i) := by
  induction i with
  | zero =>
      simp [seriesState, seriesInit, Nat.factorial]
  | succ j ih =>
      rw [seriesState_term_succ]
      have hjpos : (0 : ℝ) < (j : ℝ) + 1 := by positivity
      have hden : (0 : ℝ) < (m : ℝ) + 0.5 + j + 1 := by positivity
      have hle : ((j : ℝ) + 1) ≤ (m : ℝ) + 0.5 + j + 1 := by
        have : (0 : ℝ) ≤ (m : ℝ) := Nat.cast_nonneg m
        linarith
      have hdiv : T / ((m : ℝ) + 0.5 + j + 1) ≤ T / ((j : ℝ) + 1) :=
        div_le_div_of_nonneg_left hT hjpos hle |>.trans_eq rfl
      have hterm := seriesState_term_nonneg m hT j
      calc (seriesState m T j).term * T / ((m : ℝ) + 0.5 + j + 1)
          = (seriesState m T j).term * (T / ((m : ℝ) + 0.5 + j + 1)) := by
            ring
        _ ≤ (seriesState m T j).term * (T / ((j : ℝ) + 1)) :=
            mul_le_mul_of_nonneg_left hdiv hterm
        _ ≤ (Real.exp (-T) / (2 * ((m : ℝ) + 0.5)) * T ^ j /
              (Nat.factorial j)) * (T / ((j : ℝ) + 1)) :=
            mul_le_mul_of_nonneg_right ih (by positivity)
        _ = Real.exp (-T) / (2 * ((m : ℝ) + 0.5)) * T ^ (j + 1) /
              (Nat.factorial (j + 1)) := by
            rw [Nat.factorial_succ]
            push_cast
            field_simp
            ring

/-- The accumulated sum after n iterations is dominated by t0 times the
partial exponential series. -/
theorem seriesState_sumVal_le (m : ℕ) {T : ℝ} (hT : 0 ≤ T) (n : ℕ) :
    (seriesState m T n).sumVal ≤
      Real.exp (-T) / (2 * ((m : ℝ) + 0.5)) *
        ∑ i ∈ Finset.range (n + 1), T ^ i / (Nat.factorial i) := by
  induction n with
  | zero =>
      simp [seriesState, seriesInit, Nat.factorial]
  | succ j ih =>
      rw [seriesState_sumVal_succ, Finset.sum_range_succ, mul_add]
      refine add_le_add ih ?_
      have := seriesState_term_le_exp_term m hT (j + 1)
      calc (seriesState m T (j + 1)).term
          ≤ Real.exp (-T) / (2 * ((m : ℝ) + 0.5)) * T ^ (j + 1) /
              (Nat.factorial (j + 1)) := this
        _ = Real.exp (-T) / (2 * ((m : ℝ) + 0.5)) *
              (T ^ (j + 1) / (Nat.factorial (j + 1))) := by ring

/-- The accumulated sum never exceeds the closed-form value at T = 0. -/
theorem seriesState_sumVal_le_closed (m : ℕ) {T : ℝ} (hT : 0 ≤ T) (n : ℕ) :
    (seriesState m T n).sumVal ≤ 1 / (2 * (m : ℝ) + 1) := by
  have h1 := seriesState_sumVal_le m hT n
  have h2 : ∑ i ∈ Finset.range (n + 1), T ^ i / (Nat.factorial i) ≤
      Real.exp T := Real.sum_le_exp_of_nonneg hT (n + 1)
  have ht0 : (0 : ℝ) < Real.exp (-T) / (2 * ((m : ℝ) + 0.5)) := by positivity
  have h3 : (seriesState m T n).sumVal ≤
      Real.exp (-T) / (2 * ((m : ℝ) + 0.5)) * Real.exp T := by
    calc (seriesState m T n).sumVal
        ≤ Real.exp (-T) / (2 * ((m : ℝ) + 0.5)) *
            ∑ i ∈ Finset.range (n + 1), T ^ i / (Nat.factorial i) := h1
      _ ≤ Real.exp (-T) / (2 * ((m : ℝ) + 0.5)) * Real.exp T :=
          mul_le_mul_of_nonneg_left h2 (le_of_lt ht0)
  have hexp : Real.exp (-T) * Real.exp T = 1 := by
    rw [← Real.exp_add]
    simp
  calc (seriesState m T n).sumVal
      ≤ Real.exp (-T) / (2 * ((m : ℝ) + 0.5)) * Real.exp T := h3
    _ = 1 / (2 * (m : ℝ) + 1) := by
        field_simp
        nlinarith [hexp]

/-- Bounds for the series routine: 0 < boys_ref(m, T, eps) ≤ 1/(2m+1) for
all T ≥ 0 and eps > 0. -/
theorem boys_ref_bounds (m : ℕ) (T eps : ℝ) (hT : 0 ≤ T) (heps : 0 < eps) :
    0 < boys_ref m T eps ∧ boys_ref m T eps ≤ 1 / (2 * (m : ℝ) + 1) := by
  unfold boys_ref
  by_cases h14 : T < 1e-14
  · rw [if_pos h14]
    exact ⟨by positivity, le_refl _⟩
  · rw [if_neg h14, dif_pos (boys_ref_terminates m T eps hT heps)]
    constructor
    · exact lt_of_lt_of_le (by positivity) (seriesState_sumVal_ge m hT _)
    · exact seriesState_sumVal_le_closed m hT _

/-! ## Integral representation of the recurrence branch (towards C9)

In exact arithmetic the recurrence of boys_recur_array is error-free, so its
entries coincide with the Boys integrals F_k(T) = ∫ u^(2k) exp(-T u^2) du
over [0, 1]; this yields the bounds on the recurrence branch. -/

/-- The Boys function as the defining integral over [0, 1]. -/
def boysIntegral (k : ℕ) (T : ℝ) : ℝ :=
  ∫ u in (0 : ℝ)..1, u ^ (2 * k) * Real.exp (-T * u ^ 2)

/-- Continuity of the Boys integrand. -/
theorem boysIntegrand_continuous (j : ℕ) (T : ℝ) :
    Continuous (fun u : ℝ => u ^ j * Real.exp (-T * u ^ 2)) :=
  (continuous_pow j).mul ((continuous_const.mul (continuous_pow 2)).rexp)

/-- The seed of boys_recur_array equals the Boys integral of order 0: the
error-function closed form under the substitution t = sqrt(T) u. -/
theorem recurFm_zero_eq_integral {T : ℝ} (hT : 0 < T) :
    recurFm T 0 = ∫ u in (0 : ℝ)..1, Real.exp (-T * u ^ 2) := by
  have hsqpos : 0 < Real.sqrt T := Real.sqrt_pos.mpr hT
  have hsq : Real.sqrt T ≠ 0 := ne_of_gt hsqpos
  have hpi : Real.sqrt π ≠ 0 := ne_of_gt (Real.sqrt_pos.mpr Real.pi_pos)
  have h0 : recurFm T 0 = 0.5 * Real.sqrt π *
      (2 / Real.sqrt π * ∫ t in (0 : ℝ)..Real.sqrt T, Real.exp (-t ^ 2)) /
      Real.sqrt T := rfl
  have hsub : (∫ u in (0 : ℝ)..1, Real.exp (-(Real.sqrt T * u) ^ 2)) =
      (Real.sqrt T)⁻¹ • ∫ t in (0 : ℝ)..Real.sqrt T, Real.exp (-t ^ 2) := by
    have h := intervalIntegral.integral_comp_mul_left
      (a := (0 : ℝ)) (b := 1) (fun t => Real.exp (-t ^ 2)) hsq
    simpa using h
  have hpt : ∀ u : ℝ, Real.exp (-T * u ^ 2) =
      Real.exp (-(Real.sqrt T * u) ^ 2) := by
    intro u
    rw [mul_pow, Real.sq_sqrt hT.le]
    ring_nf
  calc recurFm T 0
      = 0.5 * Real.sqrt π *
          (2 / Real.sqrt π * ∫ t in (0 : ℝ)..Real.sqrt T, Real.exp (-t ^ 2)) /
          Real.sqrt T := h0
    _ = (Real.sqrt T)⁻¹ * ∫ t in (0 : ℝ)..Real.sqrt T, Real.exp (-t ^ 2) := by
        field_simp
        ring
    _ = ∫ u in (0 : ℝ)..1, Real.exp (-(Real.sqrt T * u) ^ 2) := by
        rw [hsub, smul_eq_mul]
    _ = ∫ u in (0 : ℝ)..1, Real.exp (-T * u ^ 2) := by
        simp_rw [hpt]

/-- Derivative of u^(2k+1) exp(-T u^2), in the form matching the two Boys
integrands. -/
theorem boys_hasDerivAt (k : ℕ) (T u : ℝ) :
    HasDerivAt (fun x : ℝ => x ^ (2 * k + 1) * Real.exp (-T * x ^ 2))
      ((2 * (k : ℝ) + 1) * (u ^ (2 * k) * Real.exp (-T * u ^ 2)) -
        2 * T * (u ^ (2 * k + 2) * Real.exp (-T * u ^ 2))) u := by
  have h1 : HasDerivAt (fun x : ℝ => x ^ (2 * k + 1))
      ((2 * (k : ℝ) + 1) * u ^ (2 * k)) u := by
    have h := hasDerivAt_pow (2 * k + 1) u
    have e1 : 2 * k + 1 - 1 = 2 * k := by omega
    have e2 : ((2 * k + 1 : ℕ) : ℝ) = 2 * (k : ℝ) + 1 := by
      push_cast
      ring
    rw [e1, e2] at h
    exact h
  have h2 : HasDerivAt (fun x : ℝ => -T * x ^ 2) (-T * (2 * u)) u := by
    have h := (hasDerivAt_pow 2 u).const_mul (-T)
    simpa using h
  have h3 : HasDerivAt (fun x : ℝ => Real.exp (-T * x ^ 2))
      (Real.exp (-T * u ^ 2) * (-T * (2 * u))) u := h2.exp
  have h4 := h1.mul h3
  convert h4 using 1
  ring

/-- Integration by parts: the exact Boys upward recurrence step for the
integrals, for T > 0. -/
theorem boysIntegral_step (k : ℕ) {T : ℝ} (hT : 0 < T) :
    ((2 * (k : ℝ) + 1) * boysIntegral k T - Real.exp (-T)) / (2 * T) =
      ∫ u in (0 : ℝ)..1, u ^ (2 * k + 2) * Real.exp (-T * u ^ 2) := by
  have hderiv : ∀ u ∈ Set.uIcc (0 : ℝ) 1,
      HasDerivAt (fun x : ℝ => x ^ (2 * k + 1) * Real.exp (-T * x ^ 2))
        ((2 * (k : ℝ) + 1) * (u ^ (2 * k) * Real.exp (-T * u ^ 2)) -
          2 * T * (u ^ (2 * k + 2) * Real.exp (-T * u ^ 2))) u :=
    fun u _ => boys_hasDerivAt k T u
  have hcont : Continuous (fun u : ℝ =>
      (2 * (k : ℝ) + 1) * (u ^ (2 * k) * Real.exp (-T * u ^ 2)) -
        2 * T * (u ^ (2 * k + 2) * Real.exp (-T * u ^ 2))) :=
    (continuous_const.mul (boysIntegrand_continuous (2 * k) T)).sub
      (continuous_const.mul (boysIntegrand_continuous (2 * k + 2) T))
  have hftc := intervalIntegral.integral_eq_sub_of_hasDerivAt hderiv
    (hcont.intervalIntegrable 0 1)
  have heval : (fun x : ℝ => x ^ (2 * k + 1) * Real.exp (-T * x ^ 2)) 1 -
      (fun x : ℝ => x ^ (2 * k + 1) * Real.exp (-T * x ^ 2)) 0 =
      Real.exp (-T) := by
    simp [zero_pow (Nat.succ_ne_zero (2 * k))]
  have hi1 := (boysIntegrand_continuous (2 * k) T).intervalIntegrable
    (0 : ℝ) 1 (μ := MeasureTheory.volume)
  have hi2 := (boysIntegrand_continuous (2 * k + 2) T).intervalIntegrable
    (0 : ℝ) 1 (μ := MeasureTheory.volume)
  have hlin : (∫ u in (0 : ℝ)..1,
      ((2 * (k : ℝ) + 1) * (u ^ (2 * k) * Real.exp (-T * u ^ 2)) -
        2 * T * (u ^ (2 * k + 2) * Real.exp (-T * u ^ 2)))) =
      (2 * (k : ℝ) + 1) * boysIntegral k T -
        2 * T * ∫ u in (0 : ℝ)..1, u ^ (2 * k + 2) * Real.exp (-T * u ^ 2) := by
    rw [intervalIntegral.integral_sub (hi1.const_mul _) (hi2.const_mul _),
      intervalIntegral.integral_const_mul, intervalIntegral.integral_const_mul]
    rfl
  rw [hlin, heval] at hftc
  have h2T : (2 : ℝ) * T ≠ 0 := by positivity
  rw [div_eq_iff h2T]
  linarith [hftc]

/-- In exact arithmetic every entry of the upward recurrence equals the Boys
integral of its order, for T > 0. -/
theorem recurFm_eq_boysIntegral {T : ℝ} (hT : 0 < T) (k : ℕ) :
    recurFm T k = boysIntegral k T := by
  induction k with
  | zero =>
      rw [recurFm_zero_eq_integral hT]
      unfold boysIntegral
      simp
  | succ j ih =>
      have hstep : recurFm T (j + 1) =
          ((2 * (j : ℝ) + 1) * recurFm T j - Real.exp (-T)) / (2 * T) := rfl
      rw [hstep, ih, boysIntegral_step j hT]
      unfold boysIntegral
      have e : 2 * (j + 1) = 2 * j + 2 := by ring
      simp_rw [e]

/-- The Boys integral is strictly positive. -/
theorem boysIntegral_pos (k : ℕ) (T : ℝ) : 0 < boysIntegral k T := by
  apply intervalIntegral.intervalIntegral_pos_of_pos_on
    ((boysIntegrand_continuous (2 * k) T).intervalIntegrable 0 1)
  · intro x hx
    exact mul_pos (pow_pos hx.1 _) (Real.exp_pos _)
  · norm_num

/-- The Boys integral is at most its value at T = 0, namely 1/(2k+1),
whenever T ≥ 0. -/
theorem boysIntegral_le (k : ℕ) {T : ℝ} (hT : 0 ≤ T) :
    boysIntegral k T ≤ 1 / (2 * (k : ℝ) + 1) := by
  have h1 : boysIntegral k T ≤ ∫ u in (0 : ℝ)..1, u ^ (2 * k) := by
    apply intervalIntegral.integral_mono_on (by norm_num)
      ((boysIntegrand_continuous (2 * k) T).intervalIntegrable 0 1)
      ((continuous_pow (2 * k)).intervalIntegrable 0 1)
    intro x hx
    have hexp : Real.exp (-T * x ^ 2) ≤ 1 := by
      have hle : -T * x ^ 2 ≤ 0 := by nlinarith [sq_nonneg x]
      calc Real.exp (-T * x ^ 2) ≤ Real.exp 0 := Real.exp_le_exp.mpr hle
        _ = 1 := Real.exp_zero
    calc x ^ (2 * k) * Real.exp (-T * x ^ 2)
        ≤ x ^ (2 * k) * 1 :=
          mul_le_mul_of_nonneg_left hexp (pow_nonneg hx.1 _)
      _ = x ^ (2 * k) := mul_one _
  have h2 : (∫ u in (0 : ℝ)..1, u ^ (2 * k)) = 1 / (2 * (k : ℝ) + 1) := by
    rw [integral_pow]
    rw [zero_pow (Nat.succ_ne_zero (2 * k)), one_pow]
    push_cast
    ring
  linarith

/-- C9: for every m ≥ 0, T ≥ 0 and eps > 0, the dispatched value satisfies
0 < boys_fast(m, T, eps) ≤ 1/(2m+1), on both the series branch and the
recurrence branch. -/
theorem boys_fast_bounds (m : ℕ) (T eps : ℝ) (hT : 0 ≤ T) (heps : 0 < eps) :
    0 < boys_fast m T eps ∧ boys_fast m T eps ≤ 1 / (2 * (m : ℝ) + 1) := by
  unfold boys_fast
  by_cases h117 : T < 117
  · rw [if_pos h117]
    exact boys_ref_bounds m T eps hT heps
  · rw [if_neg h117]
    have hTpos : (0 : ℝ) < T := lt_of_lt_of_le (by norm_num) (not_lt.mp h117)
    rw [boys_recur_array_getD (le_refl m) T, recurFm_eq_boysIntegral hTpos m]
    exact ⟨boysIntegral_pos m T, boysIntegral_le m hT⟩

/-- Witness for boys_fast_bounds at m = 0, T = 0, eps = 1. -/
theorem boys_fast_bounds_witness :
    0 < boys_fast 0 0 1 ∧ boys_fast 0 0 1 ≤ 1 / (2 * ((0 : ℕ) : ℝ) + 1) :=
  boys_fast_bounds 0 0 1 le_rfl one_pos

end

end Boys
